import Mathlib

/-!
Verification of the multivariate exponential Hawkes process engine
(`c_mv_exp.pyx`): the log-likelihood evaluator `mv_exp_ll`, the offspring
sampler `_get_mv_offspring` and the branching sampler
`mv_exp_sample_branching`, embedded shallowly over the reals.

Conventions of the embedding:
* doubles are modelled as real numbers; C `exp`/`log` as `Real.exp`/`Real.log`;
* the IEEE value `+inf` (used by `np.inf` in the `d` array, and arising as
  `-log(0)/theta` in the sampler) is modelled by `none : Option ℝ`;
  `exp (-theta * inf) = 0` (for `theta > 0`) and `inf < T = false` are the
  corresponding IEEE facts baked into `edOf` and `dLtb`;
* an out-of-bounds array access (the Cython code has `boundscheck(False)`)
  or a numpy dimension-mismatch error makes the whole call return `none`:
  fallible code returns `Option`;
* the random draws consumed from the global generator (`np.random.poisson`,
  `np.random.rand`, C `rand()`) are passed in explicitly as oracle streams,
  so every function is a deterministic function of its inputs and its
  random stream.
-/

/-- State carried through the likelihood pass of `mv_exp_ll`: the decayed
accumulators `phi`, the elapsed-time array `d` (`none` = `np.inf`), the
compensator accumulator `F` and the running total `lJ`.  The `ed` array of
the code is recomputed in full at every event before being read, so it is
not part of the state. -/
structure LLState where
  phi : List ℝ
  d : List (Option ℝ)
  F : List ℝ
  lJ : ℝ

/-- `exp (-theta * d[k])` where `d[k]` may be `np.inf` (modelled as `none`);
in IEEE arithmetic `exp (-theta * inf) = 0` for `theta > 0`. -/
noncomputable def edOf (theta : ℝ) : Option ℝ → ℝ
  | none => 0
  | some x => Real.exp (-theta * x)

/-- The running accumulation `dot += A[k, ci] * phi[k]` of `mv_exp_ll`,
over the entries of `phi` starting at process index `k`; `none` when an
`A` access is out of bounds. -/
noncomputable def dotSumAux (A : List (List ℝ)) (ci : ℕ) : ℕ → List ℝ → Option ℝ
  | _, [] => some 0
  | k, p :: ps => do
    let row ← A[k]?
    let a ← row[ci]?
    let rest ← dotSumAux A ci (k + 1) ps
    pure (a * p + rest)

/-- One iteration of the event loop of `mv_exp_ll` (lines 58–74): advance
`d[k]` by `ti - t[i-1]`, recompute `ed[k]`, update
`phi[k] = ed[k] * (1 + phi[k])` and accumulate `dot` for every `k`; then
`lda = mu[ci] + theta * dot`, `F[ci] += 1 - exp(-theta*(T - ti))`,
`lJ += log lda` and `d[ci] = 0`. -/
noncomputable def llStep (A : List (List ℝ)) (mu : List ℝ) (theta T tprev ti : ℝ)
    (ci : ℕ) (s : LLState) : Option LLState := do
  let d1 := s.d.map (fun dk => dk.map (fun x => x + (ti - tprev)))
  let phi1 := (d1.zip s.phi).map (fun p => edOf theta p.1 * (1 + p.2))
  let dot ← dotSumAux A ci 0 phi1
  let muci ← mu[ci]?
  let lda := muci + theta * dot
  let Fci ← s.F[ci]?
  pure { phi := phi1
         d := d1.set ci (some 0)
         F := s.F.set ci (Fci + (1 - Real.exp (-theta * (T - ti))))
         lJ := s.lJ + Real.log lda }

/-- The loop `for i in range(1, N)` of `mv_exp_ll`, threading the previous
event time `tprev` and the state. -/
noncomputable def llLoop (A : List (List ℝ)) (mu : List ℝ) (theta T : ℝ) :
    ℝ → List (ℝ × ℕ) → LLState → Option LLState
  | _, [], s => some s
  | tprev, (ti, ci) :: rest, s => do
    let s1 ← llStep A mu theta T tprev ti ci s
    llLoop A mu theta T ti rest s1

/-- `np.unique(c).shape[0]`: the number of distinct mark values occurring in
the realization.  This is what line 41 of the code assigns to `K`. -/
def uniqueCount (c : List ℕ) : ℕ :=
  c.dedup.length

/-- Lines 40–74 of `mv_exp_ll`: size the transient arrays by
`K = np.unique(c).shape[0]`, process event 0
(`F[c0] += 1 - exp(-theta*(T-t0))`, `lJ = log (mu[c0])`, `d[c0] = 0`),
and run the event loop over events `1..N-1`.  `none` models an
out-of-bounds access (including `c` shorter than `t`). -/
noncomputable def mvExpPass (t : List ℝ) (c : List ℕ) (mu : List ℝ)
    (A : List (List ℝ)) (theta T : ℝ) : Option LLState :=
  let K := uniqueCount c
  if t.length ≤ c.length then do
    let t0 ← t[0]?
    let c0 ← (c)[0]?
    let F0 := List.replicate K (0 : ℝ)
    let Fc0 ← F0[c0]?
    let mu0 ← mu[c0]?
    let s0 : LLState :=
      { phi := List.replicate K 0
        d := (List.replicate K (none : Option ℝ)).set c0 (some 0)
        F := F0.set c0 (Fc0 + (1 - Real.exp (-theta * (T - t0))))
        lJ := Real.log mu0 }
    llLoop A mu theta T t0 ((t.zip c).drop 1) s0
  else
    none

/-- `np.sum(A.T.dot(F))` of line 76.  `np.dot` of the `K×K'` transpose with
`F` requires `A.shape[0] = F.length` (otherwise numpy raises), and then the
summed result equals `Σ_j F[j] * (sum of row j of A)`. -/
noncomputable def ATFsum (A : List (List ℝ)) (F : List ℝ) : Option ℝ :=
  if A.length = F.length then
    some (((A.zip F).map (fun p => p.2 * p.1.sum)).sum)
  else
    none

/-- `mv_exp_ll` (lines 25–76): the likelihood pass followed by
`return lJ + -np.sum(mu * T) - np.sum(A.T.dot(F))`. -/
noncomputable def mv_exp_ll (t : List ℝ) (c : List ℕ) (mu : List ℝ)
    (A : List (List ℝ)) (theta T : ℝ) : Option ℝ := do
  let sN ← mvExpPass t c mu A theta T
  let comp ← ATFsum A sN.F
  pure (sN.lJ + -(mu.sum * T) - comp)

/-- Modelled from the spec, §4.1 step 2: one step of the specified recursion
with `K = mu.length`.  For every process `k < K`: advance `d[k]` by
`ti - tprev`, recompute `ed[k] = exp (-theta*d[k])`, update
`phi[k] = ed[k]*(1 + phi[k])`; accumulate `dot = Σ_k A[k,ci]*phi[k]`;
`lambda = mu[ci] + theta*dot`; add `log lambda`; update `F[ci]`;
reset `d[ci] = 0`.  Total: the spec presumes a valid input, so reads use
`getD`. -/
noncomputable def specStep (A : List (List ℝ)) (mu : List ℝ) (theta T tprev ti : ℝ)
    (ci : ℕ) (s : LLState) : LLState :=
  let d1 := s.d.map (fun dk => dk.map (fun x => x + (ti - tprev)))
  let phi1 := (d1.zip s.phi).map (fun p => edOf theta p.1 * (1 + p.2))
  let dot := ∑ k ∈ Finset.range mu.length, (A.getD k []).getD ci 0 * phi1.getD k 0
  { phi := phi1
    d := d1.set ci (some 0)
    F := s.F.set ci (s.F.getD ci 0 + (1 - Real.exp (-theta * (T - ti))))
    lJ := s.lJ + Real.log (mu.getD ci 0 + theta * dot) }

/-- Modelled from the spec, §4.1 step 2: the pass over events `1..N-1`. -/
noncomputable def specLoop (A : List (List ℝ)) (mu : List ℝ) (theta T : ℝ) :
    ℝ → List (ℝ × ℕ) → LLState → LLState
  | _, [], s => s
  | tprev, (ti, ci) :: rest, s =>
    specLoop A mu theta T ti rest (specStep A mu theta T tprev ti ci s)

/-- Modelled from the spec, §4.1: the specified recursion with
`K = mu.length` (§6: "`K` is inferred from `mu.length`").  Step 1
initializes `phi = 0`, `d = +∞`, seeds `lJ` with `log (mu[c0])`, adds the
first compensator term and sets `d[c0] = 0`; step 2 is `specLoop`; step 3
subtracts `Σ_k mu[k]*T` and the `dot(A^T, F)` total
`Σ_j Σ_k A[j,k]*F[j]`. -/
noncomputable def specLL (t : List ℝ) (c : List ℕ) (mu : List ℝ)
    (A : List (List ℝ)) (theta T : ℝ) : ℝ :=
  let K := mu.length
  let t0 := t.getD 0 0
  let c0 := c.getD 0 0
  let s0 : LLState :=
    { phi := List.replicate K 0
      d := (List.replicate K (none : Option ℝ)).set c0 (some 0)
      F := (List.replicate K 0).set c0 (1 - Real.exp (-theta * (T - t0)))
      lJ := Real.log (mu.getD c0 0) }
  let sN := specLoop A mu theta T t0 ((t.zip c).drop 1) s0
  sN.lJ - (∑ k ∈ Finset.range K, mu.getD k 0) * T -
    ∑ j ∈ Finset.range K, ∑ k ∈ Finset.range K, (A.getD j []).getD k 0 * sN.F.getD j 0

/-- Modelled from the spec, §8 "brute-force agreement": the sum of event
log-intensities where the intensity at event `i` is evaluated by the direct
pairwise sum `mu[ci] + theta * Σ_{j<i} A[cj,ci] * exp (-theta*(ti-tj))`
over the strict past (`past` accumulates the events already seen). -/
noncomputable def bruteSumLogs (mu : List ℝ) (A : List (List ℝ)) (theta : ℝ) :
    List (ℝ × ℕ) → List (ℝ × ℕ) → ℝ
  | _, [] => 0
  | past, (ti, ci) :: rest =>
    Real.log (mu.getD ci 0 +
        theta * (past.map
          (fun p => (A.getD p.2 []).getD ci 0 * Real.exp (-theta * (ti - p.1)))).sum) +
      bruteSumLogs mu A theta (past ++ [(ti, ci)]) rest

/-- Modelled from the spec, §8: the direct O(N²) evaluation of the same
log-likelihood: pairwise event term minus `Σ_k mu[k]*T` minus the exact
integral of the excitation,
`Σ_j (Σ_k A[cj,k]) * (1 - exp (-theta*(T-tj)))`. -/
noncomputable def bruteLL (t : List ℝ) (c : List ℕ) (mu : List ℝ)
    (A : List (List ℝ)) (theta T : ℝ) : ℝ :=
  let ev := t.zip c
  bruteSumLogs mu A theta [] ev - mu.sum * T -
    (ev.map (fun p => (A.getD p.2 []).sum * (1 - Real.exp (-theta * (T - p.1))))).sum

/-- The random draws consumed by one `_get_mv_offspring` call: `pois k`
models `np.random.poisson(Acp[k])` (the mean `Acp[k]` is distributional and
not representable in the embedding), and `unif k j` models the `j`-th
`uu() = rand()/RAND_MAX` value drawn for target process `k`; its contract
is `unif k j ∈ [0, 1]` (both endpoints attainable for C `rand`). -/
structure ORand where
  pois : ℕ → ℕ
  unif : ℕ → ℕ → ℝ

/-- `tt = -log(uu())/theta + t` of line 99.  For `u = 0`, C `log` returns
`-inf`, so `tt = +inf` (modelled as `none`) when `theta > 0`. -/
noncomputable def dOffset (theta t u : ℝ) : Option ℝ :=
  if u = 0 then none else some (-Real.log u / theta + t)

/-- The elementwise boolean mask `tres < T` of line 109; IEEE `+inf < T` is
false. -/
noncomputable def dLtb (T : ℝ) : Option ℝ → Bool
  | none => false
  | some x => decide (x < T)

/-- Numpy boolean-mask indexing `xs[mask]`: keep the entries whose mask bit
is true. -/
def maskFilter : List α → List Bool → List α
  | [], _ => []
  | _, [] => []
  | a :: as, b :: bs => if b then a :: maskFilter as bs else maskFilter as bs

/-- The candidate children generated by the double loop of
`_get_mv_offspring` (lines 96–101): for each target process `k < K`,
`pois k` children, the `j`-th at time `dOffset theta t (unif k j)` with
mark `k`, flattened in loop order. -/
noncomputable def offspringCands (t : ℝ) (K : ℕ) (theta : ℝ) (r : ORand) :
    List (Option ℝ × ℕ) :=
  (List.range K).flatMap
    (fun k => (List.range (r.pois k)).map (fun j => (dOffset theta t (r.unif k j), k)))

/-- `_get_mv_offspring` (lines 82–109): build the parallel arrays `tos`
(candidate times) and `cos` (marks), then return `tres[tres < T],
cres[tres < T]`: both arrays restricted by the same mask `tres < T`. -/
noncomputable def mvOffspring (t : ℝ) (Acp : List ℝ) (theta T : ℝ) (r : ORand) :
    List (Option ℝ) × List ℕ :=
  let cands := offspringCands t Acp.length theta r
  let tos := cands.map Prod.fst
  let cos := cands.map Prod.snd
  let mask := tos.map (dLtb T)
  (maskFilter tos mask, maskFilter cos mask)

/-- The surviving children as plain (time, mark) pairs.  Every kept time
passed the `tres < T` mask, so it is finite (`some`); `getD 0` merely
extracts it. -/
noncomputable def mvOffspringPairs (t : ℝ) (Acp : List ℝ) (theta T : ℝ)
    (r : ORand) : List (ℝ × ℕ) :=
  (((mvOffspring t Acp theta T r).1).zip (mvOffspring t Acp theta T r).2).map
    (fun p => (p.1.getD 0, p.2))

/-- Generation 0 of `mv_exp_sample_branching` (lines 129–136): for each
process `k < K`, `ipois k` immigrants (modelling
`np.random.poisson(mu[k]*T)`), the `j`-th at time `iunif k j * T` with mark
`k`; `iunif k j` models `np.random.rand() ∈ [0, 1)`. -/
noncomputable def immigrants (T : ℝ) (K : ℕ) (ipois : ℕ → ℕ)
    (iunif : ℕ → ℕ → ℝ) : List (ℝ × ℕ) :=
  (List.range K).flatMap
    (fun k => (List.range (ipois k)).map (fun j => (iunif k j * T, k)))

/-- The `while curr_P.shape[0] > 0` loop of `mv_exp_sample_branching`
(lines 138–152): append the current generation to the accumulator, draw
the offspring of each of its events (event `i` of the generation consumes
the oracle entry `oracle (ctr + i)`), and recurse on the offspring.  The
C loop is unbounded; `fuel` bounds the recursion and `none` marks a run
that did not terminate within `fuel` generations. -/
noncomputable def branchLoop (A : List (List ℝ)) (theta T : ℝ)
    (oracle : ℕ → ORand) :
    ℕ → ℕ → List (ℝ × ℕ) → List (ℝ × ℕ) → Option (List (ℝ × ℕ))
  | 0, _, _, _ => none
  | fuel + 1, ctr, curr, acc =>
    if curr = [] then
      some acc
    else
      let acc1 := acc ++ curr
      let off := curr.enum.flatMap
        (fun ip => mvOffspringPairs ip.2.1 (A.getD ip.2.2 []) theta T (oracle (ctr + ip.1)))
      branchLoop A theta T oracle fuel (ctr + curr.length) off acc1

/-- `mv_exp_sample_branching` (lines 113–156): immigrants, the branching
loop, then the final stable sort by time
(`np.argsort(P, kind="mergesort")` applied to both arrays = stable sort of
the (time, mark) pairs by time). -/
noncomputable def mv_exp_sample_branching (T : ℝ) (mu : List ℝ)
    (A : List (List ℝ)) (theta : ℝ) (ipois : ℕ → ℕ) (iunif : ℕ → ℕ → ℝ)
    (oracle : ℕ → ORand) (fuel : ℕ) : Option (List (ℝ × ℕ)) :=
  (branchLoop A theta T oracle fuel 0 (immigrants T mu.length ipois iunif) []).map
    (fun acc => acc.mergeSort (fun a b => decide (a.1 ≤ b.1)))

/-! ## Helper lemmas -/

/-- A list sum as a `Finset.range` sum of `getD` reads. -/
theorem list_sum_getD (l : List ℝ) :
    l.sum = ∑ i ∈ Finset.range l.length, l.getD i 0 := by
  induction l with
  | nil => simp
  | cons a l ih =>
    rw [List.sum_cons, List.length_cons, Finset.sum_range_succ', ih]
    simp [add_comm]

/-- When the marks are exactly the values `0..K-1`, `np.unique(c).shape[0]`
returns `K`. -/
theorem uniqueCount_eq (c : List ℕ) (K : ℕ) (hmem : ∀ m ∈ c, m < K)
    (hsurj : ∀ k < K, k ∈ c) : uniqueCount c = K := by
  have hnd : c.dedup.Nodup := c.nodup_dedup
  have hcard : c.dedup.toFinset.card = c.dedup.length :=
    List.toFinset_card_of_nodup hnd
  have hset : c.dedup.toFinset = Finset.range K := by
    ext x
    simp only [List.mem_toFinset, List.mem_dedup, Finset.mem_range]
    exact ⟨fun h => hmem x h, fun h => hsurj x h⟩
  unfold uniqueCount
  rw [← hcard, hset, Finset.card_range]

/-- The `dot` accumulation succeeds and equals a `Finset.range` sum when all
the `A` accesses it makes are in bounds. -/
theorem dotSumAux_eq (A : List (List ℝ)) (ci : ℕ) :
    ∀ (l : List ℝ) (k0 : ℕ),
      (∀ i, i < l.length → ∃ row : List ℝ, A[k0 + i]? = some row ∧ ci < row.length) →
      dotSumAux A ci k0 l =
        some (∑ i ∈ Finset.range l.length, (A.getD (k0 + i) []).getD ci 0 * l.getD i 0) := by
  intro l
  induction l with
  | nil => intro k0 _; simp [dotSumAux]
  | cons p ps ih =>
    intro k0 h
    obtain ⟨row, hrow, hci⟩ := h 0 (by simp)
    rw [Nat.add_zero] at hrow
    have hrowD : A.getD k0 [] = row := by
      simp only [List.getD_eq_getElem?_getD]
      simpa using congrArg (Option.getD · []) hrow
    have hrest := ih (k0 + 1) (fun i hi => by
      have := h (i + 1) (by simpa using Nat.succ_lt_succ hi)
      simpa [Nat.add_assoc, Nat.add_comm 1 i] using this)
    have hcig : row[ci]? = some (row.getD ci 0) := by
      simp [List.getElem?_eq_getElem hci, List.getD_eq_getElem _ _ hci]
    simp only [dotSumAux, hrow, hcig, hrest, Option.bind_eq_bind, Option.some_bind,
      Option.pure_def, Option.some.injEq]
    rw [List.length_cons, Finset.sum_range_succ']
    simp only [List.getD_cons_succ, List.getD_cons_zero, Nat.add_zero, hrowD]
    rw [add_comm]
    congr 1
    apply Finset.sum_congr rfl
    intro i _
    rw [Nat.add_right_comm k0 1 i, Nat.add_assoc k0 i 1]

/-- On a state whose arrays all have length `mu.length` and with all the
accesses in range, one iteration of the code loop computes exactly one step
of the spec recursion. -/
theorem llStep_eq_specStep (A : List (List ℝ)) (mu : List ℝ)
    (theta T tprev ti : ℝ) (ci : ℕ) (s : LLState)
    (hphi : s.phi.length = mu.length) (hd : s.d.length = mu.length)
    (hF : s.F.length = mu.length) (hci : ci < mu.length)
    (hA : A.length = mu.length) (hrow : ∀ row ∈ A, row.length = mu.length) :
    llStep A mu theta T tprev ti ci s = some (specStep A mu theta T tprev ti ci s) := by
  set d1 := s.d.map (fun dk => dk.map (fun x => x + (ti - tprev))) with hd1
  set phi1 := (d1.zip s.phi).map (fun p => edOf theta p.1 * (1 + p.2)) with hphi1
  have hlen1 : phi1.length = mu.length := by
    simp [hphi1, hd1, hd, hphi]
  have hdot := dotSumAux_eq A ci phi1 0 (fun i hi => by
    rw [hlen1] at hi
    have hiA : i < A.length := by omega
    refine ⟨A[i], by simp, ?_⟩
    have : A[i] ∈ A := List.getElem_mem hiA
    rw [hrow _ this]
    exact hci)
  have hmu : mu[ci]? = some (mu.getD ci 0) := by
    simp [List.getElem?_eq_getElem hci, List.getD_eq_getElem _ _ hci]
  have hFci : s.F[ci]? = some (s.F.getD ci 0) := by
    have : ci < s.F.length := by omega
    simp [List.getElem?_eq_getElem this, List.getD_eq_getElem _ _ this]
  have hdot2 : dotSumAux A ci 0 phi1 =
      some (∑ k ∈ Finset.range mu.length, (A.getD k []).getD ci 0 * phi1.getD k 0) := by
    rw [hdot, hlen1]
    congr 1
    exact Finset.sum_congr rfl (fun i _ => by rw [Nat.zero_add])
  simp only [llStep, specStep, ← hd1, ← hphi1, hdot2, hmu, hFci,
    Option.bind_eq_bind, Option.some_bind, Option.pure_def]

/-- One spec step preserves the lengths of the three state arrays. -/
theorem specStep_lengths (A : List (List ℝ)) (mu : List ℝ)
    (theta T tprev ti : ℝ) (ci : ℕ) (s : LLState)
    (hphi : s.phi.length = mu.length) (hd : s.d.length = mu.length)
    (hF : s.F.length = mu.length) :
    (specStep A mu theta T tprev ti ci s).phi.length = mu.length ∧
      (specStep A mu theta T tprev ti ci s).d.length = mu.length ∧
      (specStep A mu theta T tprev ti ci s).F.length = mu.length := by
  refine ⟨?_, ?_, ?_⟩ <;> simp [specStep, hphi, hd, hF]

/-- The code loop over events agrees with the spec loop, given a
well-dimensioned starting state, a `K×K` matrix `A` and in-range marks. -/
theorem llLoop_eq_specLoop (A : List (List ℝ)) (mu : List ℝ) (theta T : ℝ)
    (hA : A.length = mu.length) (hrow : ∀ row ∈ A, row.length = mu.length) :
    ∀ (evs : List (ℝ × ℕ)) (tprev : ℝ) (s : LLState),
      s.phi.length = mu.length → s.d.length = mu.length → s.F.length = mu.length →
      (∀ e ∈ evs, e.2 < mu.length) →
      llLoop A mu theta T tprev evs s = some (specLoop A mu theta T tprev evs s) := by
  intro evs
  induction evs with
  | nil => intro tprev s _ _ _ _; simp [llLoop, specLoop]
  | cons e rest ih =>
    intro tprev s hphi hd hF hm
    obtain ⟨ti, ci⟩ := e
    have hci : ci < mu.length := hm (ti, ci) (by simp)
    have hstep := llStep_eq_specStep A mu theta T tprev ti ci s hphi hd hF hci hA hrow
    obtain ⟨h1, h2, h3⟩ := specStep_lengths A mu theta T tprev ti ci s hphi hd hF
    simp only [llLoop, specLoop, hstep, Option.bind_eq_bind, Option.some_bind]
    exact ih ti _ h1 h2 h3 (fun e he => hm e (by simp [he]))

/-- The spec loop preserves the lengths of the state arrays. -/
theorem specLoop_lengths (A : List (List ℝ)) (mu : List ℝ) (theta T : ℝ) :
    ∀ (evs : List (ℝ × ℕ)) (tprev : ℝ) (s : LLState),
      s.phi.length = mu.length → s.d.length = mu.length → s.F.length = mu.length →
      (specLoop A mu theta T tprev evs s).phi.length = mu.length ∧
        (specLoop A mu theta T tprev evs s).d.length = mu.length ∧
        (specLoop A mu theta T tprev evs s).F.length = mu.length := by
  intro evs
  induction evs with
  | nil => intro tprev s h1 h2 h3; exact ⟨h1, h2, h3⟩
  | cons e rest ih =>
    intro tprev s h1 h2 h3
    obtain ⟨ti, ci⟩ := e
    obtain ⟨g1, g2, g3⟩ := specStep_lengths A mu theta T tprev ti ci s h1 h2 h3
    exact ih ti _ g1 g2 g3

/-- The summed matrix-vector contraction of `ATFsum` as an explicit double
sum: `Σ_j (Σ_k A[j,k]) * F[j]`. -/
theorem zip_map_mul_sum :
    ∀ (A : List (List ℝ)) (F : List ℝ), A.length = F.length →
      ((A.zip F).map (fun p => p.2 * p.1.sum)).sum =
        ∑ j ∈ Finset.range A.length,
          (∑ k ∈ Finset.range (A.getD j []).length, (A.getD j []).getD k 0) * F.getD j 0 := by
  intro A
  induction A with
  | nil => intro F _; simp
  | cons row A ih =>
    intro F h
    cases F with
    | nil => simp at h
    | cons f F =>
      have h' : A.length = F.length := by simpa using h
      simp only [List.zip_cons_cons, List.map_cons, List.sum_cons, List.length_cons]
      rw [Finset.sum_range_succ', ih F h']
      simp only [List.getD_cons_succ, List.getD_cons_zero]
      rw [add_comm, mul_comm f, ← list_sum_getD]

/-- Deduplicating a constant nonempty list of zero marks leaves `[0]`. -/
theorem dedup_replicate_zero : ∀ n : ℕ, (List.replicate (n + 1) (0 : ℕ)).dedup = [0] := by
  intro n
  induction n with
  | zero => rfl
  | succ n ih =>
    rw [List.replicate_succ, List.dedup_cons_of_mem (by simp [List.mem_replicate])]
    exact ih

/-- With `mu = [m]` and `A = [[0]]`, each loop iteration contributes exactly
`log m` to the running total. -/
theorem llLoop_univ (m theta T : ℝ) :
    ∀ (evs : List (ℝ × ℕ)) (tprev : ℝ) (s : LLState),
      (∀ e ∈ evs, e.2 = 0) →
      s.phi.length = 1 → s.d.length = 1 → s.F.length = 1 →
      ∃ s1 : LLState, llLoop [[0]] [m] theta T tprev evs s = some s1 ∧
        s1.F.length = 1 ∧ s1.lJ = s.lJ + evs.length * Real.log m := by
  intro evs
  induction evs with
  | nil =>
    intro tprev s _ _ _ hF
    exact ⟨s, by simp [llLoop], hF, by simp⟩
  | cons e rest ih =>
    intro tprev s hm hphi hd hF
    obtain ⟨ti, ci⟩ := e
    have hci : ci = 0 := hm (ti, ci) (by simp)
    subst hci
    obtain ⟨phi0, hphi0⟩ := List.length_eq_one.mp hphi
    obtain ⟨d0, hd0⟩ := List.length_eq_one.mp hd
    obtain ⟨f0, hf0⟩ := List.length_eq_one.mp hF
    set snew : LLState :=
      { phi := [edOf theta (d0.map (fun x => x + (ti - tprev))) * (1 + phi0)]
        d := [some 0]
        F := [f0 + (1 - Real.exp (-theta * (T - ti)))]
        lJ := s.lJ + Real.log m } with hsnew
    have hstep : llStep [[0]] [m] theta T tprev ti 0 s = some snew := by
      simp [llStep, hphi0, hd0, hf0, dotSumAux, hsnew]
    simp only [llLoop, hstep, Option.bind_eq_bind, Option.some_bind]
    obtain ⟨s1, hs1, hF1, hlJ1⟩ := ih ti snew (fun e he => hm e (by simp [he]))
      (by simp [hsnew]) (by simp [hsnew]) (by simp [hsnew])
    refine ⟨s1, hs1, hF1, ?_⟩
    rw [hlJ1]
    push_cast
    simp
    ring

/-- Applying the same boolean mask (computed from the first components) to
the two parallel projections of a pair list and re-zipping is the same as
filtering the pair list. -/
theorem maskFilter_zip_eq_filter {α β : Type} (p : α → Bool) :
    ∀ l : List (α × β),
      (maskFilter (l.map Prod.fst) ((l.map Prod.fst).map p)).zip
          (maskFilter (l.map Prod.snd) ((l.map Prod.fst).map p)) =
        l.filter (fun x => p x.1) := by
  intro l
  induction l with
  | nil => simp [maskFilter]
  | cons a l ih =>
    simp only [List.map_cons, maskFilter, List.filter_cons]
    by_cases hpa : p a.1
    · rw [if_pos hpa, if_pos hpa, if_pos hpa, List.zip_cons_cons, ih]
    · rw [if_neg hpa, if_neg hpa, if_neg hpa, ih]

/-- The same mask keeps the same number of entries from two lists of equal
length. -/
theorem maskFilter_length_eq {α β : Type} :
    ∀ (xs : List α) (ys : List β) (mask : List Bool), xs.length = ys.length →
      (maskFilter xs mask).length = (maskFilter ys mask).length := by
  intro xs
  induction xs with
  | nil =>
    intro ys mask h
    obtain rfl : ys = [] := List.length_eq_zero.mp h.symm
    cases mask with
    | nil => rfl
    | cons m ms => rfl
  | cons a l ih =>
    intro ys mask h
    cases ys with
    | nil => simp at h
    | cons b ys =>
      have h' : l.length = ys.length := by simpa using h
      cases mask with
      | nil => rfl
      | cons m ms =>
        cases m with
        | true =>
          rw [show maskFilter (a :: l) (true :: ms) = a :: maskFilter l ms from rfl,
            show maskFilter (b :: ys) (true :: ms) = b :: maskFilter ys ms from rfl,
            List.length_cons, List.length_cons, ih ys ms h']
        | false =>
          rw [show maskFilter (a :: l) (false :: ms) = maskFilter l ms from rfl,
            show maskFilter (b :: ys) (false :: ms) = maskFilter ys ms from rfl,
            ih ys ms h']

/-- The surviving (time, mark) pairs are exactly the mask-filtered
candidates, with the finite time extracted. -/
theorem mvOffspringPairs_eq_filter (t : ℝ) (Acp : List ℝ) (theta T : ℝ) (r : ORand) :
    mvOffspringPairs t Acp theta T r =
      ((offspringCands t Acp.length theta r).filter (fun x => dLtb T x.1)).map
        (fun p => (p.1.getD 0, p.2)) := by
  unfold mvOffspringPairs mvOffspring
  rw [maskFilter_zip_eq_filter (dLtb T) (offspringCands t Acp.length theta r)]

/-- Every surviving child of `_get_mv_offspring` has a time in
`[parent time, T)`, when `theta > 0` and the uniform draws lie in `[0, 1]`
(the range of `rand()/RAND_MAX`). -/
theorem mem_mvOffspringPairs_bound (t : ℝ) (Acp : List ℝ) (theta T : ℝ) (r : ORand)
    (htheta : 0 < theta) (hunif : ∀ k j, 0 ≤ r.unif k j ∧ r.unif k j ≤ 1) :
    ∀ q ∈ mvOffspringPairs t Acp theta T r, t ≤ q.1 ∧ q.1 < T := by
  intro q hq
  rw [mvOffspringPairs_eq_filter] at hq
  obtain ⟨x, hx, rfl⟩ := List.mem_map.mp hq
  obtain ⟨hxc, hxT⟩ := List.mem_filter.mp hx
  obtain ⟨v, hv⟩ : ∃ v : ℝ, x.1 = some v := by
    cases hx1 : x.1 with
    | none => rw [hx1] at hxT; simp [dLtb] at hxT
    | some v => exact ⟨v, rfl⟩
  have hvT : v < T := by
    rw [hv] at hxT
    simpa [dLtb] using hxT
  obtain ⟨k, hk, j, hj, hxe⟩ :
      ∃ k, k ∈ List.range Acp.length ∧ ∃ j, j ∈ List.range (r.pois k) ∧
        (dOffset theta t (r.unif k j), k) = x := by
    have := List.mem_flatMap.mp hxc
    obtain ⟨k, hk, hmem⟩ := this
    obtain ⟨j, hj, he⟩ := List.mem_map.mp hmem
    exact ⟨k, hk, j, hj, he⟩
  have hu := hunif k j
  have hne : r.unif k j ≠ 0 := by
    intro h0
    rw [← hxe] at hv
    rw [dOffset, if_pos h0] at hv
    exact Option.noConfusion hv
  have hvval : v = -Real.log (r.unif k j) / theta + t := by
    rw [← hxe, dOffset, if_neg hne] at hv
    exact (Option.some.injEq _ _).mp hv.symm ▸ rfl
  have hlog : Real.log (r.unif k j) ≤ 0 := Real.log_nonpos hu.1 hu.2
  have hoff : 0 ≤ -Real.log (r.unif k j) / theta :=
    div_nonneg (by linarith) (le_of_lt htheta)
  constructor
  · rw [hv]
    simp only [Option.getD_some]
    rw [hvval]
    linarith
  · rw [hv]
    simpa using hvT

/-- Every immigrant of generation 0 has a time in `[0, T)`, given the
contract of `np.random.rand`. -/
theorem immigrants_bound (T : ℝ) (K : ℕ) (ipois : ℕ → ℕ) (iunif : ℕ → ℕ → ℝ)
    (hT : 0 < T) (hiunif : ∀ k j, 0 ≤ iunif k j ∧ iunif k j < 1) :
    ∀ q ∈ immigrants T K ipois iunif, 0 ≤ q.1 ∧ q.1 < T := by
  intro q hq
  unfold immigrants at hq
  obtain ⟨k, _, hmem⟩ := List.mem_flatMap.mp hq
  obtain ⟨j, _, rfl⟩ := List.mem_map.mp hmem
  have h := hiunif k j
  constructor
  · exact mul_nonneg h.1 (le_of_lt hT)
  · calc iunif k j * T < 1 * T := by
          exact mul_lt_mul_of_pos_right h.2 hT
      _ = T := one_mul T

/-- Terminating runs of the branching loop only accumulate events with
times in `[0, T)`. -/
theorem branchLoop_bounds (A : List (List ℝ)) (theta T : ℝ) (oracle : ℕ → ORand)
    (htheta : 0 < theta)
    (hunif : ∀ n k j, 0 ≤ (oracle n).unif k j ∧ (oracle n).unif k j ≤ 1) :
    ∀ (fuel ctr : ℕ) (curr acc out : List (ℝ × ℕ)),
      (∀ q ∈ curr, 0 ≤ q.1 ∧ q.1 < T) → (∀ q ∈ acc, 0 ≤ q.1 ∧ q.1 < T) →
      branchLoop A theta T oracle fuel ctr curr acc = some out →
      ∀ q ∈ out, 0 ≤ q.1 ∧ q.1 < T := by
  intro fuel
  induction fuel with
  | zero =>
    intro ctr curr acc out _ _ h
    rw [show branchLoop A theta T oracle 0 ctr curr acc = none from rfl] at h
    exact Option.noConfusion h
  | succ fuel ih =>
    intro ctr curr acc out hcurr hacc h
    by_cases hc : curr = []
    · rw [branchLoop, if_pos hc] at h
      obtain rfl : acc = out := Option.some.inj h
      exact hacc
    · rw [branchLoop, if_neg hc] at h
      refine ih (ctr + curr.length) _ _ out ?_ ?_ h
      · intro q hq
        obtain ⟨ip, hip, hqo⟩ := List.mem_flatMap.mp hq
        have hparent : ip.2 ∈ curr := by
          rw [List.enum_eq_zip_range] at hip
          exact (List.of_mem_zip hip).2
        have hp := hcurr ip.2 hparent
        have := mem_mvOffspringPairs_bound ip.2.1 (A.getD ip.2.2 []) theta T
          (oracle (ctr + ip.1)) htheta (fun k j => hunif (ctr + ip.1) k j) q hqo
        exact ⟨le_trans hp.1 this.1, this.2⟩
      · intro q hq
        rcases List.mem_append.mp hq with hq | hq
        · exact hacc q hq
        · exact hcurr q hq

/-! ## Claims -/

/-- Claim C1: the claim states that `mv_exp_ll` infers the number of
processes `K` from `mu.length`, so that the per-event loops range over all
`mu.length` processes regardless of which marks occur.  The code instead
sets `K = np.unique(c).shape[0]` (line 41).  This theorem evaluates the
code at the failing input: with two processes (`mu.length = 2`, `A` a
`2×2` matrix) but a realization in which only process 0 fires, the code
sizes its arrays to `K = 1`, and the final `A.T.dot(F)` contraction is
dimensionally impossible, so the call produces no value at all instead of
the two-process evaluation the claim describes. -/
theorem claim_C1 :
    uniqueCount [0, 0] = 1 ∧ ([1, 1] : List ℝ).length = 2 ∧
      mv_exp_ll [0, (1:ℝ)/2] [0, 0] [1, 1] [[0, 0], [0, 0]] 1 1 = none := by
  refine ⟨rfl, rfl, ?_⟩
  simp [mv_exp_ll, mvExpPass, uniqueCount, llLoop, llStep, dotSumAux, edOf, ATFsum]

/-- Claim C2 (amended): for every input with `N ≥ 1` events,
`len(times) = len(marks)`, marks in `[0, mu.length)`, a
`mu.length × mu.length` matrix `A`, and — the amendment — every process
index occurring among the marks, `mv_exp_ll` returns exactly the value of
the recursion specified in §4.1 of the spec (seed with `log (mu[c0])`,
per-event decay/accumulate/reset cycle, final compensator subtraction),
here formalized by `specLL`. -/
theorem claim_C2 (t : List ℝ) (c : List ℕ) (mu : List ℝ)
    (A : List (List ℝ)) (theta T : ℝ)
    (hne : t ≠ []) (hlen : t.length = c.length)
    (hmem : ∀ m ∈ c, m < mu.length) (hsurj : ∀ k < mu.length, k ∈ c)
    (hA : A.length = mu.length) (hrow : ∀ row ∈ A, row.length = mu.length) :
    mv_exp_ll t c mu A theta T = some (specLL t c mu A theta T) := by
  have hK : uniqueCount c = mu.length := uniqueCount_eq c mu.length hmem hsurj
  obtain ⟨t0, trest, rfl⟩ : ∃ t0 trest, t = t0 :: trest := by
    cases t with
    | nil => exact absurd rfl hne
    | cons a l => exact ⟨a, l, rfl⟩
  obtain ⟨c0, crest, rfl⟩ : ∃ c0 crest, c = c0 :: crest := by
    cases c with
    | nil => simp at hlen
    | cons a l => exact ⟨a, l, rfl⟩
  have hc0 : c0 < mu.length := hmem c0 (by simp)
  set s0 : LLState :=
    { phi := List.replicate mu.length 0
      d := (List.replicate mu.length (none : Option ℝ)).set c0 (some 0)
      F := (List.replicate mu.length 0).set c0 (1 - Real.exp (-theta * (T - t0)))
      lJ := Real.log (mu.getD c0 0) } with hs0
  have hmu0 : mu[c0]? = some (mu.getD c0 0) := by
    simp [List.getElem?_eq_getElem hc0, List.getD_eq_getElem _ _ hc0]
  have hpass : mvExpPass (t0 :: trest) (c0 :: crest) mu A theta T =
      llLoop A mu theta T t0 (((t0 :: trest).zip (c0 :: crest)).drop 1) s0 := by
    simp only [mvExpPass, hK]
    rw [if_pos (le_of_eq hlen)]
    simp only [List.getElem?_cons_zero, Option.some_bind, Option.bind_eq_bind, hmu0,
      List.getElem?_replicate_of_lt hc0]
    rw [hs0]
    congr 2
    rw [zero_add]
  have hlens : s0.phi.length = mu.length ∧ s0.d.length = mu.length ∧
      s0.F.length = mu.length := by
    refine ⟨?_, ?_, ?_⟩ <;> simp [hs0]
  have hmarks : ∀ e ∈ (((t0 :: trest).zip (c0 :: crest)).drop 1), e.2 < mu.length := by
    intro e he
    have : e ∈ ((t0 :: trest).zip (c0 :: crest)) := List.mem_of_mem_drop he
    exact hmem e.2 (List.of_mem_zip this).2
  have hloop := llLoop_eq_specLoop A mu theta T hA hrow
    (((t0 :: trest).zip (c0 :: crest)).drop 1) t0 s0 hlens.1 hlens.2.1 hlens.2.2 hmarks
  set sN := specLoop A mu theta T t0 (((t0 :: trest).zip (c0 :: crest)).drop 1) s0 with hsN
  obtain ⟨g1, g2, g3⟩ := specLoop_lengths A mu theta T
    (((t0 :: trest).zip (c0 :: crest)).drop 1) t0 s0 hlens.1 hlens.2.1 hlens.2.2
  have hATF : ATFsum A sN.F =
      some (∑ j ∈ Finset.range mu.length, ∑ k ∈ Finset.range mu.length,
        (A.getD j []).getD k 0 * sN.F.getD j 0) := by
    rw [ATFsum, if_pos (by rw [hA, g3])]
    rw [zip_map_mul_sum A sN.F (by rw [hA, g3])]
    rw [hA]
    congr 1
    apply Finset.sum_congr rfl
    intro j hj
    rw [Finset.mem_range] at hj
    have hjA : j < A.length := by omega
    have hrowj : (A.getD j []).length = mu.length := by
      rw [List.getD_eq_getElem _ _ hjA]
      exact hrow _ (List.getElem_mem hjA)
    rw [hrowj, Finset.sum_mul]
  have hmusum : mu.sum = ∑ k ∈ Finset.range mu.length, mu.getD k 0 := list_sum_getD mu
  simp only [mv_exp_ll, hpass, hloop, Option.bind_eq_bind, Option.some_bind, ← hsN, hATF,
    Option.pure_def, Option.some.injEq]
  simp only [specLL, List.getD_cons_zero]
  rw [← hsN, ← hmusum]
  ring

/-- Claim C2, counterexample to the original statement: the input below is
valid in the sense of the spec (`N = 2` sorted times in `[0, T]`, marks in
`[0, 2)` for `mu.length = 2`, nonnegative parameters, `theta > 0`,
`T` at least the last event time), yet `mv_exp_ll` does not perform the
specified recursion: because the realization contains only one distinct
mark, the code sizes its arrays to `K = 1`, writes `F[1]` out of bounds of
the length-1 array and the call produces no value (`none`). -/
theorem claim_C2_counterexample :
    List.Chain' (· ≤ ·) [0, (1:ℝ)] ∧ (∀ m ∈ ([1, 1] : List ℕ), m < 2) ∧
      (0:ℝ) < 1 ∧ (1:ℝ) ≤ 1 ∧
      mv_exp_ll [0, (1:ℝ)] [1, 1] [1, 1] [[0, 0], [0, 0]] 1 1 = none := by
  refine ⟨by simp, by decide, by norm_num, le_refl 1, ?_⟩
  simp [mv_exp_ll, mvExpPass, uniqueCount, llLoop, llStep, dotSumAux, edOf, ATFsum]

/-- Claim C2, witness: the amended theorem applied to a concrete valid
two-process realization in which both processes fire. -/
theorem claim_C2_witness :
    mv_exp_ll [0, (1:ℝ)/2] [0, 1] [1, 1] [[0, 0], [0, 0]] 1 1 =
      some (specLL [0, (1:ℝ)/2] [0, 1] [1, 1] [[0, 0], [0, 0]] 1 1) := by
  apply claim_C2
  · simp
  · rfl
  · decide
  · decide
  · rfl
  · intro row hr
    fin_cases hr <;> rfl

/-- Claim C3 (amended): whenever `mv_exp_ll` returns a value `r`, then `r`
equals the running total `lJ` of the pass minus `Σ_k mu[k]·T` minus
`Σ_j Σ_k A[j,k]·F[j]` — the compensator contraction uses `F[j]` (the row
index of `A`), not `F[k]` as the original claim stated; this is the summed
`dot(A^T, F)` the code computes on line 76. -/
theorem claim_C3 (t : List ℝ) (c : List ℕ) (mu : List ℝ) (A : List (List ℝ))
    (theta T : ℝ) (s : LLState) (r : ℝ)
    (hpass : mvExpPass t c mu A theta T = some s)
    (hr : mv_exp_ll t c mu A theta T = some r) :
    r = s.lJ - mu.sum * T -
      ∑ j ∈ Finset.range A.length,
        ∑ k ∈ Finset.range (A.getD j []).length,
          (A.getD j []).getD k 0 * s.F.getD j 0 := by
  simp only [mv_exp_ll, hpass, Option.bind_eq_bind, Option.some_bind] at hr
  by_cases hAF : A.length = s.F.length
  · rw [ATFsum, if_pos hAF] at hr
    simp only [Option.some_bind, Option.pure_def, Option.some.injEq] at hr
    rw [← hr, zip_map_mul_sum A s.F hAF]
    have hs : ∑ j ∈ Finset.range A.length,
        (∑ k ∈ Finset.range (A.getD j []).length, (A.getD j []).getD k 0) * s.F.getD j 0 =
        ∑ j ∈ Finset.range A.length,
          ∑ k ∈ Finset.range (A.getD j []).length, (A.getD j []).getD k 0 * s.F.getD j 0 :=
      Finset.sum_congr rfl (fun j _ => Finset.sum_mul _ _ _)
    rw [hs]
    ring
  · rw [ATFsum, if_neg hAF] at hr
    simp at hr

/-- Claim C3, counterexample to the original statement: on a concrete valid
two-process input with the asymmetric matrix `A = [[0, 1], [0, 0]]`, the
value returned by the code differs from the original claim's formula
`lJ - Σ_k mu[k]·T - Σ_{j,k} A[j,k]·F[k]`: the code subtracts
`F[0] = 1 - exp (-1)` (row-indexed) while the claimed formula subtracts
`F[1] = 1 - exp (-1/2)` (column-indexed), and these differ. -/
theorem claim_C3_counterexample :
    mv_exp_ll [0, (1:ℝ)/2] [0, 1] [1, 1] [[0, 1], [0, 0]] 1 1 =
        some (Real.log (1 + Real.exp (-(1/2))) - 2 - (1 - Real.exp (-1))) ∧
      (mvExpPass [0, (1:ℝ)/2] [0, 1] [1, 1] [[0, 1], [0, 0]] 1 1).map LLState.lJ =
        some (Real.log (1 + Real.exp (-(1/2)))) ∧
      (mvExpPass [0, (1:ℝ)/2] [0, 1] [1, 1] [[0, 1], [0, 0]] 1 1).map LLState.F =
        some [1 - Real.exp (-1), 1 - Real.exp (-(1/2))] ∧
      Real.log (1 + Real.exp (-(1/2))) - 2 - (1 - Real.exp (-1)) ≠
        Real.log (1 + Real.exp (-(1/2))) - ([1, 1] : List ℝ).sum * 1 -
          ∑ j ∈ Finset.range 2, ∑ k ∈ Finset.range 2,
            (([[0, 1], [0, 0]] : List (List ℝ)).getD j []).getD k 0 *
              ([1 - Real.exp (-1), 1 - Real.exp (-(1/2))] : List ℝ).getD k 0 := by
  refine ⟨?_, ?_, ?_, ?_⟩
  · simp [mv_exp_ll, mvExpPass, uniqueCount, llLoop, llStep, dotSumAux, edOf, ATFsum]
    norm_num
    try ring
  · simp [mvExpPass, uniqueCount, llLoop, llStep, dotSumAux, edOf]
    try norm_num
    try ring
  · simp [mvExpPass, uniqueCount, llLoop, llStep, dotSumAux, edOf]
    try norm_num
    try ring
  · intro h
    simp only [Finset.sum_range_succ, Finset.sum_range_zero,
      show (([[0, 1], [0, 0]] : List (List ℝ)).getD 0 []) = [0, 1] from rfl,
      show (([[0, 1], [0, 0]] : List (List ℝ)).getD 1 []) = [0, 0] from rfl,
      show ([(0:ℝ), 1] : List ℝ).getD 0 0 = 0 from rfl,
      show ([(0:ℝ), 1] : List ℝ).getD 1 0 = 1 from rfl,
      show ([(0:ℝ), 0] : List ℝ).getD 0 0 = 0 from rfl,
      show ([(0:ℝ), 0] : List ℝ).getD 1 0 = 0 from rfl,
      show ([1 - Real.exp (-1), 1 - Real.exp (-(1/2))] : List ℝ).getD 0 0 =
        1 - Real.exp (-1) from rfl,
      show ([1 - Real.exp (-1), 1 - Real.exp (-(1/2))] : List ℝ).getD 1 0 =
        1 - Real.exp (-(1/2)) from rfl] at h
    have hlt : Real.exp (-1) < Real.exp (-(1/2)) := by
      apply Real.exp_lt_exp.mpr
      norm_num
    have hsum : ([1, 1] : List ℝ).sum = 2 := by norm_num
    rw [hsum] at h
    nlinarith [h]

/-- Claim C3, witness: the amended theorem instantiated on a concrete
one-event univariate input, where the pass state and the returned value
are computed explicitly. -/
theorem claim_C3_witness :
    ∃ (s : LLState) (r : ℝ),
      mvExpPass [(1:ℝ)/2] [0] [1] [[0]] 1 1 = some s ∧
        mv_exp_ll [(1:ℝ)/2] [0] [1] [[0]] 1 1 = some r ∧
        r = s.lJ - ([1] : List ℝ).sum * 1 -
          ∑ j ∈ Finset.range ([[(0:ℝ)]] : List (List ℝ)).length,
            ∑ k ∈ Finset.range ((([[(0:ℝ)]] : List (List ℝ)).getD j []).length),
              (([[(0:ℝ)]] : List (List ℝ)).getD j []).getD k 0 * s.F.getD j 0 := by
  have hpass : mvExpPass [(1:ℝ)/2] [0] [1] [[0]] 1 1 =
      some { phi := [0], d := [some 0], F := [1 - Real.exp (-(1/2))], lJ := 0 } := by
    simp [mvExpPass, uniqueCount, llLoop]
    norm_num
  have hll : mv_exp_ll [(1:ℝ)/2] [0] [1] [[0]] 1 1 = some (-1) := by
    simp [mv_exp_ll, mvExpPass, uniqueCount, llLoop, ATFsum]
  exact ⟨_, _, hpass, hll, claim_C3 _ _ _ _ _ _ _ _ hpass hll⟩

/-- Claim C4: the claim states that the recursive `mv_exp_ll` agrees with
the direct O(N²) pairwise evaluation `bruteLL` on every valid realization.
This theorem evaluates both at the failing input `t = [0, 1, 2]`,
`c = [0, 1, 0]`, `mu = [1, 1]`, `A = [[1, 0], [0, 0]]`, `theta = 1`,
`T = 2`: the code's third event intensity is
`1 + exp (-2)·(1 + exp (-1))` — the `phi` update re-adds process 0's
event at time 0 that `phi[0]` already contained — while the pairwise sum
gives `1 + exp (-2)`, and the two log-likelihoods differ. -/
theorem claim_C4 :
    mv_exp_ll [0, 1, (2:ℝ)] [0, 1, 0] [1, 1] [[1, 0], [0, 0]] 1 2 =
        some (Real.log (1 + Real.exp (-2) * (1 + Real.exp (-1))) - 4 -
          (1 - Real.exp (-2))) ∧
      bruteLL [0, 1, (2:ℝ)] [0, 1, 0] [1, 1] [[1, 0], [0, 0]] 1 2 =
        Real.log (1 + Real.exp (-2)) - 4 - (1 - Real.exp (-2)) ∧
      mv_exp_ll [0, 1, (2:ℝ)] [0, 1, 0] [1, 1] [[1, 0], [0, 0]] 1 2 ≠
        some (bruteLL [0, 1, (2:ℝ)] [0, 1, 0] [1, 1] [[1, 0], [0, 0]] 1 2) := by
  have h1 : mv_exp_ll [0, 1, (2:ℝ)] [0, 1, 0] [1, 1] [[1, 0], [0, 0]] 1 2 =
      some (Real.log (1 + Real.exp (-2) * (1 + Real.exp (-1))) - 4 -
        (1 - Real.exp (-2))) := by
    simp [mv_exp_ll, mvExpPass, uniqueCount, llLoop, llStep, dotSumAux, edOf, ATFsum]
    norm_num
    ring
  have h2 : bruteLL [0, 1, (2:ℝ)] [0, 1, 0] [1, 1] [[1, 0], [0, 0]] 1 2 =
      Real.log (1 + Real.exp (-2)) - 4 - (1 - Real.exp (-2)) := by
    simp only [bruteLL, bruteSumLogs, List.zip_cons_cons, List.zip_nil_right, List.map_cons,
      List.map_nil, List.sum_cons, List.sum_nil, List.nil_append, List.cons_append,
      List.singleton_append,
      show ([[(1:ℝ), 0], [0, 0]] : List (List ℝ)).getD 1 [] = [0, 0] from rfl,
      show ([[(1:ℝ), 0], [0, 0]] : List (List ℝ)).getD 0 [] = [1, 0] from rfl,
      show ([(1:ℝ), 0] : List ℝ).getD 0 0 = 1 from rfl,
      show ([(1:ℝ), 0] : List ℝ).getD 1 0 = 0 from rfl,
      show ([(0:ℝ), 0] : List ℝ).getD 0 0 = 0 from rfl,
      show ([(1:ℝ), 1] : List ℝ).getD 0 0 = 1 from rfl,
      show ([(1:ℝ), 1] : List ℝ).getD 1 0 = 1 from rfl]
    norm_num
  refine ⟨h1, h2, ?_⟩
  rw [h1, h2]
  intro h
  rw [Option.some.injEq] at h
  have hp1 : (0:ℝ) < 1 + Real.exp (-2) := by positivity
  have hp2 : 1 + Real.exp (-2) < 1 + Real.exp (-2) * (1 + Real.exp (-1)) := by
    nlinarith [Real.exp_pos (-2 : ℝ), Real.exp_pos (-1 : ℝ)]
  have := Real.log_lt_log hp1 hp2
  linarith

/-- Claim C5 (amended): `mv_exp_ll` performs no input validation.  In
particular, for any `theta ≤ 0` (and any `T`, including `T ≤ 0` and
`T` before the last event), the call on the one-event input below runs to
completion and returns the ordinary value `-T` instead of failing with an
InvalidInput error. -/
theorem claim_C5 (theta T : ℝ) (_htheta : theta ≤ 0) :
    mv_exp_ll [(1:ℝ)/2] [0] [1] [[0]] theta T = some (-T) := by
  simp [mv_exp_ll, mvExpPass, uniqueCount, llLoop, ATFsum]

/-- Claim C5, counterexample to the original statement: `theta = -1`
violates the precondition `theta > 0`, yet the call does not fail — it
returns the value `-1`.  No validation happens before computation. -/
theorem claim_C5_counterexample :
    (-1 : ℝ) ≤ 0 ∧ mv_exp_ll [(1:ℝ)/2] [0] [1] [[0]] (-1) 1 = some (-1) := by
  refine ⟨by norm_num, ?_⟩
  simp [mv_exp_ll, mvExpPass, uniqueCount, llLoop, ATFsum]

/-- Claim C5, witness: the amended theorem at `theta = -2`, `T = 5`. -/
theorem claim_C5_witness :
    (-2 : ℝ) ≤ 0 ∧ mv_exp_ll [(1:ℝ)/2] [0] [1] [[0]] (-2) 5 = some (-5) := by
  exact ⟨by norm_num, claim_C5 (-2) 5 (by norm_num)⟩

/-- Claim C6 (amended): `mv_exp_ll` performs no positivity check on the
intensity.  When `mu[c0] = m ≤ 0`, the intensity at the first event is
`m ≤ 0` and its logarithm is undefined, yet no DomainError is signalled:
the code applies `log` to `m` anyway (IEEE `log` of a nonpositive argument
yields `-inf`/NaN; the real-valued model uses `Real.log m`) and returns the
resulting value `log m - m`. -/
theorem claim_C6 (m : ℝ) (_hm : m ≤ 0) :
    mv_exp_ll [(1:ℝ)/2] [0] [m] [[0]] 1 1 = some (Real.log m - m) := by
  simp [mv_exp_ll, mvExpPass, uniqueCount, llLoop, ATFsum]
  ring

/-- Claim C6, counterexample to the original statement: with `mu = [0]`
the first event's intensity is `0 ≤ 0`, yet the call does not signal any
error — it returns a value. -/
theorem claim_C6_counterexample :
    ∃ v : ℝ, mv_exp_ll [(1:ℝ)/4] [0] [0] [[0]] 1 1 = some v := by
  refine ⟨Real.log 0 - 0, ?_⟩
  simp [mv_exp_ll, mvExpPass, uniqueCount, llLoop, ATFsum]

/-- Claim C6, witness: the amended theorem at `m = 0`. -/
theorem claim_C6_witness :
    (0 : ℝ) ≤ 0 ∧ mv_exp_ll [(1:ℝ)/2] [0] [0] [[0]] 1 1 = some (Real.log 0 - 0) := by
  exact ⟨le_refl 0, claim_C6 0 (le_refl 0)⟩

/-- Claim C7: for `K = 1` with `A = [[0]]`, on every realization of
`N ≥ 1` sorted times in `[0, T]` (all marks are 0, the only valid mark),
`mv_exp_ll` returns exactly the closed-form homogeneous-Poisson
log-likelihood `N·log mu - mu·T`. -/
theorem claim_C7 (t : List ℝ) (m theta T : ℝ) (hne : t ≠ [])
    (_hsort : t.Chain' (· ≤ ·)) (_htheta : 0 < theta)
    (_hrange : ∀ x ∈ t, 0 ≤ x ∧ x ≤ T) :
    mv_exp_ll t (List.replicate t.length 0) [m] [[0]] theta T =
      some ((t.length : ℝ) * Real.log m - m * T) := by
  obtain ⟨t0, trest, rfl⟩ : ∃ t0 trest, t = t0 :: trest := by
    cases t with
    | nil => exact absurd rfl hne
    | cons a l => exact ⟨a, l, rfl⟩
  have hKeq : uniqueCount (List.replicate (t0 :: trest).length 0) = 1 := by
    rw [List.length_cons]
    unfold uniqueCount
    rw [dedup_replicate_zero]
    rfl
  have hzip : (((t0 :: trest).zip (List.replicate (t0 :: trest).length 0)).drop 1) =
      trest.zip (List.replicate trest.length 0) := by
    rw [List.length_cons, List.replicate_succ, List.zip_cons_cons, List.drop_succ_cons,
      List.drop_zero]
  have hpass : mvExpPass (t0 :: trest) (List.replicate (t0 :: trest).length 0) [m] [[0]]
      theta T = llLoop [[0]] [m] theta T t0 (trest.zip (List.replicate trest.length 0))
        { phi := [0]
          d := [some 0]
          F := [0 + (1 - Real.exp (-theta * (T - t0)))]
          lJ := Real.log m } := by
    simp only [mvExpPass, hKeq, hzip]
    rw [if_pos (by simp)]
    simp [List.replicate_succ]
  obtain ⟨s1, hs1, hF1, hlJ1⟩ := llLoop_univ m theta T
    (trest.zip (List.replicate trest.length 0)) t0
    { phi := [0]
      d := [some 0]
      F := [0 + (1 - Real.exp (-theta * (T - t0)))]
      lJ := Real.log m }
    (fun e he => List.eq_of_mem_replicate (List.of_mem_zip he).2) rfl rfl rfl
  obtain ⟨f1, hf1⟩ := List.length_eq_one.mp hF1
  have hlen : (trest.zip (List.replicate trest.length 0)).length = trest.length := by
    simp
  simp only [mv_exp_ll, hpass, hs1, Option.bind_eq_bind, Option.some_bind]
  rw [ATFsum, if_pos (by simp [hf1])]
  simp only [hf1, Option.some_bind, Option.pure_def, Option.some.injEq]
  rw [hlJ1, hlen]
  simp only [List.length_cons, List.sum_cons, List.sum_nil, LLState.lJ]
  push_cast
  simp
  ring

/-- Claim C7, witness: a two-event realization with `mu = [1]`,
`theta = 1`, `T = 1`; the closed form gives `2·log 1 - 1·1 = -1`. -/
theorem claim_C7_witness :
    mv_exp_ll [0, (1:ℝ)/2] [0, 0] [1] [[0]] 1 1 = some (-1) := by
  have h := claim_C7 [0, (1:ℝ)/2] 1 1 1 (by simp)
    (by norm_num [List.chain'_cons]) (by norm_num)
    (by intro x hx; fin_cases hx <;> norm_num)
  rw [show (List.replicate ([0, (1:ℝ)/2].length) (0:ℕ)) = [0, 0] from rfl] at h
  rw [h]
  norm_num

/-- Claim C8: for every call of `_get_mv_offspring` (over every random
stream), the returned pair of arrays, read as (time, mark) pairs, is
exactly the list of generated candidates — for each target process
`k < K`, `pois k` children at time `parentTime + (-log U / theta)` with
mark `k`, as built by `offspringCands` — restricted by the mask
`time < T`; and when no candidate survives the mask the result is the
empty pair of sequences. -/
theorem claim_C8 (t : ℝ) (Acp : List ℝ) (theta T : ℝ) (r : ORand) :
    ((mvOffspring t Acp theta T r).1).zip (mvOffspring t Acp theta T r).2 =
        (offspringCands t Acp.length theta r).filter (fun x => dLtb T x.1) ∧
      ((offspringCands t Acp.length theta r).filter (fun x => dLtb T x.1) = [] →
        mvOffspring t Acp theta T r = ([], [])) := by
  have hz := maskFilter_zip_eq_filter (dLtb T) (offspringCands t Acp.length theta r)
  constructor
  · exact hz
  · intro hempty
    rw [hempty] at hz
    have hlen := maskFilter_length_eq
      ((offspringCands t Acp.length theta r).map Prod.fst)
      ((offspringCands t Acp.length theta r).map Prod.snd)
      (((offspringCands t Acp.length theta r).map Prod.fst).map (dLtb T))
      (by simp)
    rcases List.zip_eq_nil_iff.mp hz with hfst | hsnd
    · have hzero : (maskFilter ((offspringCands t Acp.length theta r).map Prod.snd)
          (((offspringCands t Acp.length theta r).map Prod.fst).map (dLtb T))).length = 0 := by
        rw [← hlen, hfst]
        rfl
      simp only [mvOffspring]
      rw [hfst, List.length_eq_zero.mp hzero]
    · have hzero : (maskFilter ((offspringCands t Acp.length theta r).map Prod.fst)
          (((offspringCands t Acp.length theta r).map Prod.fst).map (dLtb T))).length = 0 := by
        rw [hlen, hsnd]
        rfl
      simp only [mvOffspring]
      rw [hsnd, List.length_eq_zero.mp hzero]

/-- Claim C9: every terminating run of the branching sampler (any fuel
bound under which the generation loop empties) returns a realization whose
times are sorted non-decreasingly with every time in `[0, T)`, and the
final ordering is the stable mergesort of the accumulated generations: for
every time value the events carrying it appear in exactly their
accumulation order, so exact ties are broken deterministically for a fixed
random stream. -/
theorem claim_C9 (T : ℝ) (mu : List ℝ) (A : List (List ℝ)) (theta : ℝ)
    (ipois : ℕ → ℕ) (iunif : ℕ → ℕ → ℝ) (oracle : ℕ → ORand) (fuel : ℕ)
    (out : List (ℝ × ℕ)) (htheta : 0 < theta) (hT : 0 < T)
    (hiunif : ∀ k j, 0 ≤ iunif k j ∧ iunif k j < 1)
    (hunif : ∀ n k j, 0 ≤ (oracle n).unif k j ∧ (oracle n).unif k j ≤ 1)
    (hout : mv_exp_sample_branching T mu A theta ipois iunif oracle fuel = some out) :
    out.Pairwise (fun a b => a.1 ≤ b.1) ∧ (∀ q ∈ out, 0 ≤ q.1 ∧ q.1 < T) ∧
      ∃ acc : List (ℝ × ℕ),
        branchLoop A theta T oracle fuel 0 (immigrants T mu.length ipois iunif) [] =
            some acc ∧
          out = acc.mergeSort (fun a b => decide (a.1 ≤ b.1)) ∧
          ∀ v : ℝ, out.filter (fun q => decide (q.1 = v)) =
            acc.filter (fun q => decide (q.1 = v)) := by
  unfold mv_exp_sample_branching at hout
  obtain ⟨acc, hacc, hsort⟩ := Option.map_eq_some'.mp hout
  have htrans : ∀ a b c : ℝ × ℕ, (fun a b => decide (a.1 ≤ b.1)) a b →
      (fun a b => decide (a.1 ≤ b.1)) b c → (fun a b => decide (a.1 ≤ b.1)) a c := by
    intro a b c h1 h2
    simp only [decide_eq_true_eq] at h1 h2 ⊢
    exact le_trans h1 h2
  have htotal : ∀ a b : ℝ × ℕ, ((fun a b => decide (a.1 ≤ b.1)) a b ||
      (fun a b => decide (a.1 ≤ b.1)) b a) := by
    intro a b
    simp only [Bool.or_eq_true, decide_eq_true_eq]
    exact le_total a.1 b.1
  have hbounds : ∀ q ∈ acc, 0 ≤ q.1 ∧ q.1 < T :=
    branchLoop_bounds A theta T oracle htheta hunif fuel 0
      (immigrants T mu.length ipois iunif) [] acc
      (immigrants_bound T mu.length ipois iunif hT hiunif) (by simp) hacc
  refine ⟨?_, ?_, acc, hacc, hsort.symm, ?_⟩
  · rw [← hsort]
    have hp := List.sorted_mergeSort htrans htotal acc
    exact hp.imp (fun h => decide_eq_true_eq.mp h)
  · intro q hq
    rw [← hsort] at hq
    exact hbounds q (List.mem_mergeSort.mp hq)
  · intro v
    set p : ℝ × ℕ → Bool := fun q => decide (q.1 = v) with hp
    have hmemf : ∀ q ∈ acc.filter p, q.1 = v := by
      intro q hq
      exact decide_eq_true_eq.mp (List.mem_filter.mp hq).2
    have hpair : (acc.filter p).Pairwise (fun a b => decide (a.1 ≤ b.1)) := by
      apply List.pairwise_of_forall_mem_list
      intro a ha b hb
      rw [hmemf a ha, hmemf b hb]
      simp
    have hsubl : List.Sublist (acc.filter p)
        (acc.mergeSort (fun a b => decide (a.1 ≤ b.1))) :=
      List.sublist_mergeSort htrans htotal hpair (List.filter_sublist acc)
    rw [hsort] at hsubl
    have hfil : (acc.filter p).filter p = acc.filter p :=
      List.filter_eq_self.mpr (fun a ha => (List.mem_filter.mp ha).2)
    have hsub2 : List.Sublist (acc.filter p) (out.filter p) := by
      have hstep := hsubl.filter p
      rw [hfil] at hstep
      exact hstep
    have hperm : List.Perm (out.filter p) (acc.filter p) := by
      have hp2 : List.Perm out acc := by
        rw [← hsort]
        exact List.mergeSort_perm acc _
      exact hp2.filter p
    exact (hsub2.eq_of_length hperm.length_eq.symm).symm

/-- Claim C9, witness: a concrete terminating run — one immigrant at time
0 for the single process, no offspring, two generations of fuel — whose
output `[(0, 0)]` is sorted, lies in `[0, 1)`, and is the stable sort of
the accumulated list. -/
theorem claim_C9_witness :
    ([((0:ℝ), (0:ℕ))].Pairwise (fun a b => a.1 ≤ b.1)) ∧
      (∀ q ∈ [((0:ℝ), (0:ℕ))], 0 ≤ q.1 ∧ q.1 < 1) ∧
      ∃ acc : List (ℝ × ℕ),
        branchLoop [[0]] 1 1 (fun _ => ⟨fun _ => 0, fun _ _ => 1⟩) 2 0
            (immigrants 1 (List.length ([1] : List ℝ)) (fun _ => 1) (fun _ _ => 0)) [] =
            some acc ∧
          [((0:ℝ), (0:ℕ))] = acc.mergeSort (fun a b => decide (a.1 ≤ b.1)) ∧
          ∀ v : ℝ, [((0:ℝ), (0:ℕ))].filter (fun q => decide (q.1 = v)) =
            acc.filter (fun q => decide (q.1 = v)) := by
  have heval : mv_exp_sample_branching 1 [1] [[0]] 1 (fun _ => 1) (fun _ _ => 0)
      (fun _ => ⟨fun _ => 0, fun _ _ => 1⟩) 2 = some [((0 : ℝ), (0 : ℕ))] := by
    simp [mv_exp_sample_branching, immigrants, branchLoop, mvOffspringPairs, mvOffspring,
      offspringCands, maskFilter, List.enum_cons,
      show List.range 1 = [0] from rfl, show List.range 0 = [] from rfl]
  exact claim_C9 1 [1] [[0]] 1 (fun _ => 1) (fun _ _ => 0)
    (fun _ => ⟨fun _ => 0, fun _ _ => 1⟩) 2 [((0:ℝ), (0:ℕ))] (by norm_num) (by norm_num)
    (fun k j => by norm_num) (fun n k j => by norm_num) heval

/-- Claim C10: for `theta > 0` and uniform draws in the closed interval
`[0, 1]` (the range of `rand()/RAND_MAX`), every child returned by
`_get_mv_offspring` has time at least the parent time — but not
necessarily strictly greater: a draw `U = 1` gives offset
`-log 1 / theta = 0`, producing a child that coincides with its parent in
time, and a draw `U = 0` gives an infinite offset whose candidate is
removed by the `time < T` mask. -/
theorem claim_C10 :
    (∀ (t : ℝ) (Acp : List ℝ) (theta T : ℝ) (r : ORand), 0 < theta →
        (∀ k j, 0 ≤ r.unif k j ∧ r.unif k j ≤ 1) →
        ∀ q ∈ mvOffspringPairs t Acp theta T r, t ≤ q.1) ∧
      mvOffspringPairs 0 [1] 1 1 ⟨fun _ => 1, fun _ _ => 1⟩ = [((0 : ℝ), 0)] ∧
      mvOffspringPairs 0 [1] 1 1 ⟨fun _ => 1, fun _ _ => 0⟩ = [] := by
  refine ⟨?_, ?_, ?_⟩
  · intro t Acp theta T r ht hu q hq
    exact (mem_mvOffspringPairs_bound t Acp theta T r ht hu q hq).1
  · have ho : dOffset 1 0 (1 : ℝ) = some 0 := by
      rw [dOffset, if_neg one_ne_zero]
      norm_num
    have hd : dLtb 1 (some (0 : ℝ)) = true := by
      rw [dLtb]
      simp
    simp [mvOffspringPairs, mvOffspring, offspringCands, ho, hd, maskFilter]
  · have ho : dOffset 1 0 (0 : ℝ) = none := by
      rw [dOffset, if_pos rfl]
    have hd : dLtb 1 (none : Option ℝ) = false := rfl
    simp [mvOffspringPairs, mvOffspring, offspringCands, ho, hd, maskFilter]

/-- Claim C10, witness: the lower-bound part instantiated at a concrete
stream with uniform value `1/2`. -/
theorem claim_C10_witness :
    ∀ q ∈ mvOffspringPairs 0 [2] 1 1 ⟨fun _ => 1, fun _ _ => 1/2⟩, (0:ℝ) ≤ q.1 :=
  claim_C10.1 0 [2] 1 1 ⟨fun _ => 1, fun _ _ => 1/2⟩ (by norm_num)
    (fun k j => by norm_num)
